import Mathlib

/-!
Verification development for `syncopath`, a one-way directory synchronizer
(`src/syncopath/__init__.py`).  The Python engine is shallowly embedded:

* a filesystem tree is the inductive `FS`; directory listings are association
  lists from entry names to subtrees, mirroring the name-keyed dictionaries
  built from `os.scandir` results in `_compare_directory`;
* the concurrent walk of `plan` / `_compare` / `_compare_directory` is the
  recursive function `planDir`: the work queue of relative directories is
  drained in a fixed traversal order, which is sound because the global plan
  is the set union of all partial plans, so the order of comparisons is
  irrelevant to the result;
* `listing` encodes `listdir`, which absorbs every `OSError` (missing path,
  or `NotADirectoryError` when a file is listed) as an empty listing;
* `execute` is embedded twice, as an operation trace (`execTrace`, for
  ordering and frame claims) and as a state transformer on destination trees
  (`applyExec`, for end-state claims);
* the copy pipeline and the removal/copy worker tasks are embedded as small
  control-flow models (`copyPipeline`, `unlinkTask`, `copyTask`, `readPuts`,
  `writeGets`) in which a raised exception truncates the rest of a task body.

`os.path.normcase` is the identity on POSIX, and names are compared after
`normcase`; the embedding fixes POSIX semantics, so listing keys are the
entry names themselves.
-/

/-- A stat record: the fields of `os.stat_result` the program reads
(`ST_SIZE`, `ST_MTIME`, `ST_ATIME`). -/
structure Stat where
  size : Nat
  mtime : Nat
  atime : Nat
deriving DecidableEq, Repr

/-- A filesystem tree.  A regular file carries its stat record and its byte
content (which the comparator never reads); a directory carries its named
children. -/
inductive FS where
  | file (st : Stat) (content : List Nat)
  | dir (children : List (String × FS))

/-- Name lookup in a directory listing, as the dictionary lookup
`left_listing[name]` in `_compare_directory`. -/
def lookupName : List (String × FS) → String → Option FS
  | [], _ => none
  | (m, c) :: cs, n => if m = n then some c else lookupName cs n

/-- Remove the entry of the given name from a listing (dictionary keys are
unique, so removing the first occurrence is dictionary removal). -/
def eraseName : List (String × FS) → String → List (String × FS)
  | [], _ => []
  | (m, c) :: cs, n => if m = n then cs else (m, c) :: eraseName cs n

/-- The names of a listing's entries (the dictionary's key set). -/
def keys (cs : List (String × FS)) : List String := cs.map Prod.fst

/-- Entry names are pairwise distinct, as dictionary keys are. -/
def keysNodup : List (String × FS) → Bool
  | [] => true
  | (n, _) :: cs => !(cs.any fun c => c.1 = n) && keysNodup cs

mutual
/-- Well-formedness of a tree: every directory's entry names are distinct
(dictionaries built from one `os.scandir` cannot repeat a key). -/
def wfFS : FS → Bool
  | .file _ _ => true
  | .dir cs => keysNodup cs && wfChildren cs
/-- Well-formedness of each child of a listing. -/
def wfChildren : List (String × FS) → Bool
  | [] => true
  | c :: cs => wfFS c.2 && wfChildren cs
end

/-- Well-formedness of the tree at a root that may be absent. -/
def wfOpt : Option FS → Bool
  | none => true
  | some t => wfFS t

/-- Model of `listdir`: list a path's entries; any `OSError` (absent path, or a
regular file, which raises `NotADirectoryError`) is absorbed as `[]`. -/
def listing : Option FS → List (String × FS)
  | some (.dir cs) => cs
  | _ => []

/-- Resolve a relative path (as a list of name segments) inside a tree. -/
def nodeAt : Option FS → List String → Option FS
  | t, [] => t
  | some (.dir cs), n :: p => nodeAt (lookupName cs n) p
  | _, _ :: _ => none

/-- The change plan: five sets of relative paths (`copy` pairs each path with
the source's stat record).  The Python sets are modelled as lists with
membership as the set-membership notion. -/
structure Plan where
  rmdir : List (List String)
  rmfile : List (List String)
  rmlink : List (List String)
  mkdir : List (List String)
  copy : List (List String × Stat)
deriving DecidableEq, Repr

/-- The empty plan, as initialized in `plan` and `_compare_directory`. -/
def Plan.empty : Plan := ⟨[], [], [], [], []⟩

/-- Set union of two plans, as `_consolidate_results` merges partial plans. -/
def Plan.union (a b : Plan) : Plan :=
  ⟨a.rmdir ++ b.rmdir, a.rmfile ++ b.rmfile, a.rmlink ++ b.rmlink,
   a.mkdir ++ b.mkdir, a.copy ++ b.copy⟩

instance : Append Plan := ⟨Plan.union⟩

/-- A plan holding a single `rmdir` entry. -/
def Plan.oneRmdir (q : List String) : Plan := ⟨[q], [], [], [], []⟩

/-- A plan holding a single `rmfile` entry. -/
def Plan.oneRmfile (q : List String) : Plan := ⟨[], [q], [], [], []⟩

/-- A plan holding a single `mkdir` entry. -/
def Plan.oneMkdir (q : List String) : Plan := ⟨[], [], [], [q], []⟩

/-- A plan holding a single `copy` entry. -/
def Plan.oneCopy (q : List String) (st : Stat) : Plan := ⟨[], [], [], [], [(q, st)]⟩

/-- Size bound on a name lookup, needed for the comparator's termination. -/
def sizeOf_lookupName (cs : List (String × FS)) (n : String) :
    sizeOf (lookupName cs n) ≤ 1 + sizeOf cs := by
  induction cs with
  | nil => simp [lookupName]
  | cons c cs ih =>
    obtain ⟨m, t⟩ := c
    simp only [lookupName, List.cons.sizeOf_spec, Prod.mk.sizeOf_spec]
    split
    · simp only [Option.some.sizeOf_spec]
      omega
    · omega

/-- Size bound on a name removal, needed for the comparator's termination. -/
def sizeOf_eraseName (cs : List (String × FS)) (n : String) :
    sizeOf (eraseName cs n) ≤ sizeOf cs := by
  induction cs with
  | nil => simp [eraseName]
  | cons c cs ih =>
    obtain ⟨m, t⟩ := c
    simp only [eraseName, List.cons.sizeOf_spec, Prod.mk.sizeOf_spec]
    split
    · omega
    · simp only [List.cons.sizeOf_spec, Prod.mk.sizeOf_spec]
      omega

mutual
/-- The tree comparator.  `planDir rel l r` is the union of the partial plans
of every directory comparison reachable from comparing the listings `l`
(source side) and `r` (destination side) at relative path `rel`: the
breadth-first walk of `_compare` / `_compare_directory` with all partial
plans consolidated.  Left entries are classified against `r` one at a time
(cases 1 and 3 of `_compare_directory`), matched names are erased, and the
remaining right-only entries are then classified (case 2). -/
def planDir : List String → List (String × FS) → List (String × FS) → Plan
  | _, [], [] => Plan.empty
  | rel, [], (n, c) :: rest =>
    Plan.union (branchPlan rel n none (some c)) (planDir rel [] rest)
  | rel, (n, c) :: rest, r =>
    Plan.union (branchPlan rel n (some c) (lookupName r n))
      (planDir rel rest (eraseName r n))
termination_by _rel l r => sizeOf l + sizeOf r + 1
decreasing_by
  all_goals
    simp only [List.cons.sizeOf_spec, List.nil.sizeOf_spec,
      Prod.mk.sizeOf_spec, Option.some.sizeOf_spec, Option.none.sizeOf_spec]
  all_goals
    first
      | omega
      | (have h1 := sizeOf_lookupName r n
         have h2 := sizeOf_eraseName r n
         omega)

/-- Classification of one name, given the entry on each side (`none` when
the side lacks the name).  Each `planDir` recursion is a directory that
`_compare_directory` pushes onto the work queue; the follow-up comparison
lists both sides at that relative path, and a side holding a file or nothing
lists as `[]` (`listdir` absorbs the `OSError`). -/
def branchPlan : List String → String → Option FS → Option FS → Plan
  -- Case 1: the entry only exists on the left.
  | rel, n, some (.dir lcs), none =>
    Plan.union (Plan.oneMkdir (rel ++ [n])) (planDir (rel ++ [n]) lcs [])
  | rel, n, some (.file st _), none => Plan.oneCopy (rel ++ [n]) st
  -- Case 2: the entry only exists on the right.
  | rel, n, none, some (.dir rcs) =>
    Plan.union (Plan.oneRmdir (rel ++ [n])) (planDir (rel ++ [n]) [] rcs)
  | rel, n, none, some (.file _ _) => Plan.oneRmfile (rel ++ [n])
  | _, _, none, none => Plan.empty
  -- Case 3.1: the left side is a directory (always enqueued for walking);
  -- a right-side file is removed, and its path lists as [] in the follow-up.
  | rel1, n1, some (.dir lcs), some (.dir rcs) => planDir (rel1 ++ [n1]) lcs rcs
  | rel, n, some (.dir lcs), some (.file _ _) =>
    Plan.union (Plan.oneRmfile (rel ++ [n])) (planDir (rel ++ [n]) lcs [])
  -- Case 3.2: the left side is a file over a right-side directory: the
  -- directory is recursively removed and the file copied.
  | rel, n, some (.file st _), some (.dir rcs) =>
    Plan.union (Plan.union (Plan.oneRmdir (rel ++ [n])) (Plan.oneCopy (rel ++ [n]) st))
      (planDir (rel ++ [n]) [] rcs)
  -- Case 3.2, both files: compare sizes, then modification times.
  | rel, n, some (.file stl _), some (.file str _) =>
    Plan.union
      (if stl.size ≠ str.size then Plan.oneCopy (rel ++ [n]) stl else Plan.empty)
      (if stl.mtime ≠ str.mtime then Plan.oneCopy (rel ++ [n]) stl else Plan.empty)
termination_by _rel _n lo ro => sizeOf lo + sizeOf ro
decreasing_by
  all_goals
    simp only [List.cons.sizeOf_spec, List.nil.sizeOf_spec,
      Prod.mk.sizeOf_spec, Option.some.sizeOf_spec, Option.none.sizeOf_spec,
      FS.dir.sizeOf_spec, FS.file.sizeOf_spec]
  all_goals omega
end

/-- Model of `plan(left, right)`: seed the work queue with the relative root `''` and
compare the two root listings (a missing or non-directory root lists as
empty). -/
def planFS (A B : Option FS) : Plan := planDir [] (listing A) (listing B)

/-- A relative path rendered as the string `os.path.join` builds from `''`
and the successive entry names (POSIX separator). -/
def pathStr : List String → String
  | [] => ""
  | [n] => n
  | n :: ns => n ++ "/" ++ pathStr ns

/-- Descending order on relative paths by their joined string form:
`sorted(..., reverse=True)` in the `rmdir` phase of `execute`. -/
def descPath (a b : List String) : Prop := pathStr b ≤ pathStr a

instance : DecidableRel descPath := fun a b =>
  inferInstanceAs (Decidable (pathStr b ≤ pathStr a))

/-- Ascending order on relative paths by their joined string form:
`sorted(...)` in the `mkdir` phase of `execute`. -/
def ascPath (a b : List String) : Prop := pathStr a ≤ pathStr b

instance : DecidableRel ascPath := fun a b =>
  inferInstanceAs (Decidable (pathStr a ≤ pathStr b))

/-- Descending order of copy entries by source stat size:
`sorted(..., key=lambda x: x[1][ST_SIZE], reverse=True)` in `execute`. -/
def bySizeDesc (a b : List String × Stat) : Prop := b.2.size ≤ a.2.size

instance : DecidableRel bySizeDesc := fun a b =>
  inferInstanceAs (Decidable (b.2.size ≤ a.2.size))

instance : IsTotal (List String) descPath :=
  ⟨fun a b => le_total (pathStr b) (pathStr a)⟩

instance : IsTrans (List String) descPath :=
  ⟨fun _ _ _ h1 h2 => le_trans h2 h1⟩

instance : IsTotal (List String) ascPath :=
  ⟨fun a b => le_total (pathStr a) (pathStr b)⟩

instance : IsTrans (List String) ascPath :=
  ⟨fun _ _ _ h1 h2 => le_trans h1 h2⟩

instance : IsTotal (List String × Stat) bySizeDesc :=
  ⟨fun a b => le_total b.2.size a.2.size⟩

instance : IsTrans (List String × Stat) bySizeDesc :=
  ⟨fun _ _ _ h1 h2 => le_trans h2 h1⟩

/-- The `rmdir` set sorted in reverse lexical order (Python sets are
unordered; sorting makes the phase order deterministic). -/
def rmdirSorted (plans : Plan) : List (List String) :=
  plans.rmdir.insertionSort descPath

/-- The `mkdir` set sorted in forward lexical order. -/
def mkdirSorted (plans : Plan) : List (List String) :=
  plans.mkdir.insertionSort ascPath

/-- The `copy` set sorted largest source file first. -/
def copySorted (plans : Plan) : List (List String × Stat) :=
  plans.copy.insertionSort bySizeDesc

/-- Whether a path string ends with the separator. -/
def endsSlash (a : String) : Bool := a.data.getLast? == some '/'

/-- Model of `os.path.join` for a relative second component on POSIX. -/
def pjoin (a b : String) : String :=
  if a = "" then b else if endsSlash a then a ++ b else a ++ "/" ++ b

/-- The primitive filesystem operations `execute` and the copy pipeline
issue, each carrying the full path string it targets. -/
inductive Op where
  | makedirs (p : String)
  | unlink (p : String)
  | rmdir (p : String)
  | openR (p : String)
  | openW (p : String)
  | readF (p : String)
  | writeF (p : String)
  | closeR (p : String)
  | closeW (p : String)
  | utime (p : String) (atime mtime : Nat)
deriving DecidableEq, Repr

/-- The path an operation targets. -/
def Op.path : Op → String
  | .makedirs p | .unlink p | .rmdir p | .openR p | .openW p
  | .readF p | .writeF p | .closeR p | .closeW p | .utime p _ _ => p

/-- Operations that create, modify or remove something on disk:
`makedirs`, `unlink`, `rmdir`, opening for writing, writing, `utime`. -/
def Op.mutates : Op → Bool
  | .makedirs _ | .unlink _ | .rmdir _ | .openW _ | .writeF _ | .utime _ _ _ => true
  | .openR _ | .readF _ | .closeR _ | .closeW _ => false

/-- The operation trace of `copy(left, right, path, stats)` for one file,
given whether each side's `open_file` succeeds (`open_file` absorbs the
`IOError` and delivers no handle).  Bytes are moved between the reader and
writer tasks only when both handles exist; afterwards the access and
modification times are replicated from the source stat record, and any open
handle is closed (`copy` closes `src`/`dst` again unconditionally). -/
def copyPipeline (left right relp : String) (st : Stat) (srcOk dstOk : Bool) :
    List Op :=
  [Op.openR (pjoin left relp), Op.openW (pjoin right relp)]
  ++ (if srcOk && dstOk then
      [Op.readF (pjoin left relp), Op.writeF (pjoin right relp),
       Op.closeR (pjoin left relp), Op.closeW (pjoin right relp),
       Op.utime (pjoin right relp) st.atime st.mtime]
      else [])
  ++ (if srcOk then [Op.closeR (pjoin left relp)] else [])
  ++ (if dstOk then [Op.closeW (pjoin right relp)] else [])

/-- The operation trace of `execute(left, right, plans)`: ensure the
destination root exists, dispatch an `unlink` per `rmfile` entry, remove the
`rmdir` entries in reverse lexical order, create the `mkdir` entries in
forward lexical order, then run the copy pipeline per `copy` entry, largest
source size first.  `srcOk`/`dstOk` say whether each copy's two opens
succeed. -/
def execTrace (left right : String) (plans : Plan) (rightExists : Bool)
    (srcOk dstOk : List String → Bool) : List Op :=
  (if rightExists then [] else [Op.makedirs right])
  ++ plans.rmfile.map (fun f => Op.unlink (pjoin right (pathStr f)))
  ++ (rmdirSorted plans).map (fun d => Op.rmdir (pjoin right (pathStr d)))
  ++ (mkdirSorted plans).map (fun d => Op.makedirs (pjoin right (pathStr d)))
  ++ (copySorted plans).flatMap (fun pc =>
      copyPipeline left right (pathStr pc.1) pc.2 (srcOk pc.1) (dstOk pc.1))

/-- A path equal to the given root or joined under it. -/
def underRoot (root p : String) : Prop := p = root ∨ ∃ rel, p = pjoin root rel

/-- Holds when `q` lies strictly below `p` in the tree of relative paths. -/
def isAncestor (p q : List String) : Prop := ∃ t, t ≠ [] ∧ q = p ++ t

/-- A well-formed nonempty relative path: every segment is a nonempty
entry name. -/
def validRel (p : List String) : Prop := p ≠ [] ∧ ∀ s ∈ p, s ≠ ""

instance (p : List String) : Decidable (validRel p) :=
  inferInstanceAs (Decidable (p ≠ [] ∧ ∀ s ∈ p, s ≠ ""))

/-- Replace the entry of the given name in a listing. -/
def replaceName : List (String × FS) → String → FS → List (String × FS)
  | [], _, _ => []
  | (m, c) :: cs, n, t => if m = n then (n, t) :: cs else (m, c) :: replaceName cs n t

/-- Model of `os.unlink`: remove the regular file at a relative path; `none` when the
path is missing or not a regular file. -/
def fsUnlink : FS → List String → Option FS
  | .dir cs, [n] =>
    match lookupName cs n with
    | some (.file _ _) => some (.dir (eraseName cs n))
    | _ => none
  | .dir cs, n :: m :: p =>
    match lookupName cs n with
    | some c => (fsUnlink c (m :: p)).map fun t => .dir (replaceName cs n t)
    | none => none
  | _, _ => none

/-- Model of `os.rmdir`: remove the directory at a relative path; `none` (the error
that propagates out of `execute`) when it is missing, not a directory, or
not empty. -/
def fsRmdir : FS → List String → Option FS
  | .dir cs, [n] =>
    match lookupName cs n with
    | some (.dir []) => some (.dir (eraseName cs n))
    | _ => none
  | .dir cs, n :: m :: p =>
    match lookupName cs n with
    | some c => (fsRmdir c (m :: p)).map fun t => .dir (replaceName cs n t)
    | none => none
  | _, _ => none

/-- Model of `os.makedirs` without `exist_ok`: create every missing directory along
the path; `none` when the final target already exists or a file blocks the
way. -/
def fsMakedirs : FS → List String → Option FS
  | .dir cs, [n] =>
    match lookupName cs n with
    | none => some (.dir (cs ++ [(n, .dir [])]))
    | some _ => none
  | .dir cs, n :: m :: p =>
    match lookupName cs n with
    | none => (fsMakedirs (.dir []) (m :: p)).map fun t => .dir (cs ++ [(n, t)])
    | some c => (fsMakedirs c (m :: p)).map fun t => .dir (replaceName cs n t)
  | _, _ => none

/-- Open-for-writing, stream the source bytes, and replicate timestamps, as
one step on the destination tree: the written file's size is its content
length and its times come from the source stat record (`os.utime`).  `none`
when the parent is missing or not a directory, or a directory sits at the
target (the open fails and the copy is silently abandoned). -/
def fsPutFile : FS → List String → Stat → List Nat → Option FS
  | .dir cs, [n], st, content =>
    match lookupName cs n with
    | some (.dir _) => none
    | some (.file _ _) =>
      some (.dir (replaceName cs n (.file ⟨content.length, st.mtime, st.atime⟩ content)))
    | none =>
      some (.dir (cs ++ [(n, .file ⟨content.length, st.mtime, st.atime⟩ content)]))
  | .dir cs, n :: m :: p, st, content =>
    match lookupName cs n with
    | some (.dir ccs) =>
      (fsPutFile (.dir ccs) (m :: p) st content).map fun t => .dir (replaceName cs n t)
    | _ => none
  | _, _, _, _ => none

/-- Performs `os.makedirs(right)` when the destination root does not exist. -/
def ensureRoot : Option FS → FS
  | none => .dir []
  | some t => t

/-- Model of `execute` as a transformer of the destination tree, phases in program
order.  A failed `unlink` or a failed copy leaves the tree unchanged (the
failure stays inside its worker task); a failed `rmdir` or `makedirs`
propagates (`Except.error`).  The bytes written by a copy are read from the
source tree at the same relative path. -/
def applyExec (A : Option FS) (B : Option FS) (plans : Plan) : Except String FS :=
  let b0 := ensureRoot B
  let b1 := plans.rmfile.foldl
    (fun b f => match fsUnlink b f with | some t => t | none => b) b0
  match (rmdirSorted plans).foldlM (fun b d =>
      match fsRmdir b d with
      | some t => Except.ok t
      | none => Except.error "rmdir failed") b1 with
  | .error e => .error e
  | .ok b2 =>
    match (mkdirSorted plans).foldlM (fun b d =>
        match fsMakedirs b d with
        | some t => Except.ok t
        | none => Except.error "makedirs failed") b2 with
    | .error e => .error e
    | .ok b3 =>
      .ok ((copySorted plans).foldl (fun b pc =>
        match nodeAt A pc.1 with
        | some (.file _ content) =>
          (match fsPutFile b pc.1 pc.2 content with
           | some t => t
           | none => b)
        | _ => b) b3)

/-- Model of `sync(left, right)` on trees: compute the plan, then execute it. -/
def syncFS (A B : Option FS) : Except String FS := applyExec A B (planFS A B)

/-- Model of `os.path.normcase`, which is the identity on POSIX. -/
def normcase (s : String) : String := s

/-- Split a character list at every `'/'`, as Python's `path.split('/')`. -/
def splitSlashAux : List Char → List Char → List String
  | [], acc => [String.mk acc.reverse]
  | c :: cs, acc =>
    if c = '/' then String.mk acc.reverse :: splitSlashAux cs []
    else splitSlashAux cs (c :: acc)

/-- Python's `path.split('/')` on a string. -/
def splitSlash (s : String) : List String := splitSlashAux s.data []

/-- Model of `os.path.normpath` for POSIX paths (CPython `posixpath.normpath`):
collapse repeated separators, drop `.` segments, resolve `..` where
possible, preserving one or two leading slashes.  (`pathStr` is exactly
`'/'.join`.) -/
def normpath (path : String) : String :=
  if path = "" then "."
  else
    let d := path.data
    let initialSlashes : Nat :=
      if d.take 1 = ['/'] then
        if d.take 2 = ['/', '/'] ∧ ¬ d.take 3 = ['/', '/', '/'] then 2 else 1
      else 0
    let comps := splitSlash path
    let newComps := comps.foldl (fun acc comp =>
      if comp = "" ∨ comp = "." then acc
      else if comp ≠ ".." ∨ (initialSlashes = 0 ∧ acc = List.nil) ∨
          (acc ≠ List.nil ∧ acc.getLast? = some "..") then
        acc ++ [comp]
      else if acc ≠ List.nil then acc.dropLast
      else acc) []
    let joined := String.mk (List.replicate initialSlashes '/') ++ pathStr newComps
    if joined = "" then "." else joined

/-- The canonicalized form of a root path as `plan` computes it
(`_normcase(_normpath(...))`, lines 62-63). -/
def planRoot (s : String) : String := normcase (normpath s)

/-- Model of `sync(left, right)`: the execution trace of `execute(left, right,
plan(left, right))`.  `plan` canonicalizes the roots only for its own walk;
`execute` receives the original `left` and `right` arguments unchanged. -/
def syncOps (left right : String) (A B : Option FS) (rightExists : Bool)
    (srcOk dstOk : List String → Bool) : List Op :=
  execTrace left right (planFS A B) rightExists srcOk dstOk

/-- The observable steps of the worker tasks `unlink` and `copy`: the
os-level calls plus the throttle release (`thread_manager.release()`) and the
completion-barrier hand-back (`io_queue.get()` / `io_queue.task_done()`). -/
inductive TEff where
  | osUnlink
  | osOpenSrc
  | osOpenDst
  | streamed
  | closeSrc
  | closeDst
  | osUtime
  | release
  | ioGet
  | ioTaskDone
deriving DecidableEq, Repr

/-- The body of the `unlink` worker task (lines 305-313), as the sequence of
steps it executes together with whether an exception escaped the body.  The
body has no `try`/`finally`: when `os.unlink` raises, the remaining
statements do not run (the thread swallows the exception, so nothing
propagates to `execute`, but the semaphore and the queue token are never
handed back). -/
def unlinkTask (unlinkOk : Bool) : List TEff × Bool :=
  if unlinkOk then ([.osUnlink, .release, .ioGet, .ioTaskDone], false)
  else ([.osUnlink], true)

/-- The body of the `copy` worker task (lines 316-363), as the sequence of
steps it executes together with whether an exception escaped the body.
`open_file` catches `IOError` itself, and the reader/writer tasks catch
their own I/O errors, so the only uncontained call in the body is
`os.utime` (line 353; `close` can fail the same way): when it raises, the
release and the queue hand-back are skipped. -/
def copyTask (srcOk dstOk utimeOk : Bool) : List TEff × Bool :=
  let opens : List TEff := [.osOpenSrc, .osOpenDst]
  if srcOk && dstOk then
    let xfer : List TEff := [.streamed, .closeSrc, .closeDst, .osUtime]
    if utimeOk then
      (opens ++ xfer ++ [.closeSrc, .closeDst, .release, .ioGet, .ioTaskDone], false)
    else (opens ++ xfer, true)
  else
    (opens ++ (if srcOk then [TEff.closeSrc] else [])
      ++ (if dstOk then [TEff.closeDst] else [])
      ++ [.release, .ioGet, .ioTaskDone], false)

/-- One result of `src.read(BUFFER_SIZE)` in the reader task: a chunk of
bytes, end of file (empty bytes), or a raised `IOError`. -/
inductive REv where
  | chunk (b : List Nat)
  | eof
  | fail

/-- The reader task `read(src, blobs)`: everything it puts into the bounded
channel, in order.  It loops reading chunks until an empty read or an
`IOError` (which it logs), closes the handle, and always puts the `None`
end-of-stream marker last (`blobs.put(None)` sits after the
`try`/`finally`). -/
def readPuts : List REv → List (Option (List Nat))
  | [] => [none]
  | .eof :: _ => [none]
  | .fail :: _ => [none]
  | .chunk b :: evs => if b = [] then [none] else some b :: readPuts evs

/-- The drain loop the writer task runs after a write error: it keeps taking
items from the channel until it takes the `None` marker.  Returns how many
items it takes. -/
def drainGets : List (Option (List Nat)) → Nat
  | [] => 0
  | none :: _ => 1
  | some _ :: evs => 1 + drainGets evs

/-- The writer task `write(dst, blobs)` run against the stream of items the
reader puts, with `wfail k` saying whether the k-th `dst.write` raises
`IOError`.  Returns how many items it takes from the channel: it consumes
until the `None` marker, and on a write error it switches to the drain loop
so the reader is never left blocked on a full channel. -/
def writeGets (wfail : Nat → Bool) : List (Option (List Nat)) → Nat → Nat
  | [], _ => 0
  | none :: _, _ => 1
  | some _ :: evs, k => if wfail k then 1 + drainGets evs else 1 + writeGets wfail evs (k + 1)

/-- Source tree for the directory-over-file scenario: a directory `d`
holding one regular file `f`. -/
def exSrcDirOverFile : FS := .dir [("d", .dir [("f", .file ⟨3, 5, 7⟩ [1, 2, 3])])]

/-- Destination tree for the directory-over-file scenario: a regular file
named `d`. -/
def exDstDirOverFile : FS := .dir [("d", .file ⟨1, 9, 9⟩ [4])]

/-- A destination tree holding one regular file `g`, for the missing-source
scenario. -/
def exDstOnlyFile : FS := .dir [("g", .file ⟨1, 1, 1⟩ [7])]

/-- Source tree for the `claim1` witness: one file `a` of size 1. -/
def exW1Src : FS := .dir [("a", .file ⟨1, 2, 3⟩ [9])]

/-- Destination tree for the `claim1` witness: file `a` of size 2, so the
sizes differ and the pair must be planned for copying. -/
def exW1Dst : FS := .dir [("a", .file ⟨2, 2, 3⟩ [8, 8])]

/-- A concrete plan used to witness the `execute` ordering theorem. -/
def exPlan : Plan :=
  ⟨[["a"], ["a", "b"], ["c"]], [["x"]], [], [["m"], ["m", "n"]],
   [([ "y" ], ⟨1, 0, 0⟩), ([ "z" ], ⟨5, 0, 0⟩)]⟩

/-- A single plan entry: a path in one of the five sets (`copy` entries also
carry the stat record).  Used to reason about all five sets at once. -/
inductive PTag where
  | inRmdir (q : List String)
  | inRmfile (q : List String)
  | inRmlink (q : List String)
  | inMkdir (q : List String)
  | inCopy (q : List String) (st : Stat)
deriving DecidableEq, Repr

/-- The relative path an entry is keyed by. -/
def PTag.path : PTag → List String
  | .inRmdir q | .inRmfile q | .inRmlink q | .inMkdir q | .inCopy q _ => q

/-- Membership of an entry in a plan. -/
def Plan.tagMem (P : Plan) : PTag → Prop
  | .inRmdir q => q ∈ P.rmdir
  | .inRmfile q => q ∈ P.rmfile
  | .inRmlink q => q ∈ P.rmlink
  | .inMkdir q => q ∈ P.mkdir
  | .inCopy q st => (q, st) ∈ P.copy

theorem tagMem_union {a b : Plan} {t : PTag} :
    (Plan.union a b).tagMem t ↔ a.tagMem t ∨ b.tagMem t := by
  cases t <;> simp [Plan.union, Plan.tagMem]

theorem tagMem_empty {t : PTag} : ¬ Plan.empty.tagMem t := by
  cases t <;> simp [Plan.empty, Plan.tagMem]

theorem tagMem_oneRmdir {q : List String} {t : PTag} :
    (Plan.oneRmdir q).tagMem t ↔ t = .inRmdir q := by
  cases t <;> simp [Plan.oneRmdir, Plan.tagMem, eq_comm]

theorem tagMem_oneRmfile {q : List String} {t : PTag} :
    (Plan.oneRmfile q).tagMem t ↔ t = .inRmfile q := by
  cases t <;> simp [Plan.oneRmfile, Plan.tagMem, eq_comm]

theorem tagMem_oneMkdir {q : List String} {t : PTag} :
    (Plan.oneMkdir q).tagMem t ↔ t = .inMkdir q := by
  cases t <;> simp [Plan.oneMkdir, Plan.tagMem, eq_comm]

theorem tagMem_oneCopy {q : List String} {st : Stat} {t : PTag} :
    (Plan.oneCopy q st).tagMem t ↔ t = .inCopy q st := by
  cases t <;> simp [Plan.oneCopy, Plan.tagMem, eq_comm]

theorem lookupName_cons_ne {k : String} {c : FS} {cs : List (String × FS)}
    {m : String} (h : k ≠ m) : lookupName ((k, c) :: cs) m = lookupName cs m := by
  simp [lookupName, h]

theorem lookupName_eq_none_iff {cs : List (String × FS)} {n : String} :
    lookupName cs n = none ↔ n ∉ keys cs := by
  induction cs with
  | nil => simp [lookupName, keys]
  | cons c cs ih =>
    obtain ⟨m, t⟩ := c
    by_cases h : m = n
    · subst h
      simp [lookupName, keys]
    · rw [lookupName_cons_ne h, ih]
      simp only [keys, List.map_cons, List.mem_cons]
      constructor
      · intro hn hor
        rcases hor with h1 | h2
        · exact h h1.symm
        · exact hn h2
      · intro hn h2
        exact hn (Or.inr h2)

theorem keysNodup_cons {n : String} {c : FS} {cs : List (String × FS)} :
    keysNodup ((n, c) :: cs) = true ↔
      (∀ x ∈ cs, x.1 ≠ n) ∧ keysNodup cs = true := by
  simp [keysNodup]

theorem lookupName_tail_of_nodup {k : String} {c : FS} {cs : List (String × FS)}
    (h : keysNodup ((k, c) :: cs) = true) : lookupName cs k = none := by
  rw [lookupName_eq_none_iff]
  intro hk
  obtain ⟨x, hx, hx1⟩ := List.exists_of_mem_map hk
  exact (keysNodup_cons.mp h).1 x hx hx1

theorem lookupName_eraseName_ne {cs : List (String × FS)} {n m : String}
    (h : m ≠ n) : lookupName (eraseName cs n) m = lookupName cs m := by
  induction cs with
  | nil => simp [eraseName]
  | cons c cs ih =>
    obtain ⟨k, t⟩ := c
    by_cases hk : k = n
    · subst hk
      rw [show eraseName ((k, t) :: cs) k = cs by simp [eraseName]]
      rw [lookupName_cons_ne (Ne.symm h)]
    · rw [show eraseName ((k, t) :: cs) n = (k, t) :: eraseName cs n by
        simp [eraseName, hk]]
      by_cases hm : k = m
      · subst hm
        simp [lookupName]
      · rw [lookupName_cons_ne hm, lookupName_cons_ne hm, ih]

theorem eraseName_sublist (cs : List (String × FS)) (n : String) :
    List.Sublist (eraseName cs n) cs := by
  induction cs with
  | nil => simp [eraseName]
  | cons c cs ih =>
    obtain ⟨k, t⟩ := c
    by_cases hk : k = n
    · simp only [eraseName, if_pos hk]
      exact List.sublist_cons_self (k, t) cs
    · simpa [eraseName, hk] using ih.cons₂ (k, t)

theorem keysNodup_iff_nodup {cs : List (String × FS)} :
    keysNodup cs = true ↔ (keys cs).Nodup := by
  induction cs with
  | nil => simp [keysNodup, keys]
  | cons c cs ih =>
    obtain ⟨k, t⟩ := c
    simp only [keysNodup_cons, keys, List.map_cons, List.nodup_cons, ih]
    constructor
    · rintro ⟨h1, h2⟩
      refine ⟨fun hk => ?_, h2⟩
      obtain ⟨x, hx, hx1⟩ := List.exists_of_mem_map hk
      exact h1 x hx hx1
    · rintro ⟨h1, h2⟩
      exact ⟨fun x hx hx1 => h1 (hx1 ▸ List.mem_map_of_mem Prod.fst hx), h2⟩

theorem keysNodup_of_sublist {cs cs2 : List (String × FS)} (hs : List.Sublist cs2 cs)
    (hn : keysNodup cs = true) : keysNodup cs2 = true := by
  rw [keysNodup_iff_nodup] at hn ⊢
  exact hn.sublist (hs.map Prod.fst)

theorem lookupName_eraseName_self {cs : List (String × FS)} {n : String}
    (h : keysNodup cs = true) : lookupName (eraseName cs n) n = none := by
  induction cs with
  | nil => simp [eraseName, lookupName]
  | cons c cs ih =>
    obtain ⟨k, t⟩ := c
    by_cases hk : k = n
    · subst hk
      rw [show eraseName ((k, t) :: cs) k = cs by simp [eraseName]]
      exact lookupName_tail_of_nodup h
    · rw [show eraseName ((k, t) :: cs) n = (k, t) :: eraseName cs n by
        simp [eraseName, hk]]
      rw [lookupName_cons_ne hk]
      exact ih (keysNodup_cons.mp h).2

theorem wfFS_dir_iff {cs : List (String × FS)} :
    wfFS (.dir cs) = true ↔ keysNodup cs = true ∧ wfChildren cs = true := by
  simp [wfFS]

theorem wfChildren_lookup {cs : List (String × FS)} {n : String} {c : FS}
    (h : wfChildren cs = true) (hl : lookupName cs n = some c) : wfFS c = true := by
  induction cs with
  | nil => simp [lookupName] at hl
  | cons x cs ih =>
    obtain ⟨k, t⟩ := x
    simp only [wfChildren, Bool.and_eq_true] at h
    by_cases hk : k = n
    · subst hk
      rw [show lookupName ((k, t) :: cs) k = some t by simp [lookupName]] at hl
      cases hl
      exact h.1
    · exact ih h.2 (by rwa [lookupName_cons_ne hk] at hl)

theorem planDir_shape : ∀ (rel : List String) (l r : List (String × FS)) (t : PTag),
    (planDir rel l r).tagMem t →
    ∃ n rest, (n ∈ keys l ∨ n ∈ keys r) ∧ t.path = rel ++ n :: rest := by
  refine planDir.induct
    (fun rel l r => ∀ t, (planDir rel l r).tagMem t →
      ∃ n rest, (n ∈ keys l ∨ n ∈ keys r) ∧ t.path = rel ++ n :: rest)
    (fun rel n lo ro => ∀ t, (branchPlan rel n lo ro).tagMem t →
      ∃ rest, t.path = rel ++ n :: rest)
    ?_ ?_ ?_ ?_ ?_ ?_ ?_ ?_ ?_ ?_ ?_ ?_
  · intro x t h
    rw [show planDir x [] [] = Plan.empty from by simp [planDir]] at h
    exact absurd h tagMem_empty
  · intro rel n c rest ih2 ih1 t h
    rw [show planDir rel [] ((n, c) :: rest) =
        Plan.union (branchPlan rel n none (some c)) (planDir rel [] rest) from by
      simp [planDir]] at h
    rcases tagMem_union.mp h with h | h
    · obtain ⟨rest2, hp⟩ := ih2 t h
      exact ⟨n, rest2, Or.inr (by simp [keys]), hp⟩
    · obtain ⟨n2, rest2, hor, hp⟩ := ih1 t h
      rcases hor with h1 | h1
      · simp [keys] at h1
      · exact ⟨n2, rest2, Or.inr (by simp [keys] ; exact Or.inr (by simpa [keys] using h1)), hp⟩
  · intro rel n c rest r ih2 ih1 t h
    rw [show planDir rel ((n, c) :: rest) r =
        Plan.union (branchPlan rel n (some c) (lookupName r n))
          (planDir rel rest (eraseName r n)) from by simp [planDir]] at h
    rcases tagMem_union.mp h with h | h
    · obtain ⟨rest2, hp⟩ := ih2 t h
      exact ⟨n, rest2, Or.inl (by simp [keys]), hp⟩
    · obtain ⟨n2, rest2, hor, hp⟩ := ih1 t h
      rcases hor with h1 | h1
      · exact ⟨n2, rest2, Or.inl (by simp [keys] ; exact Or.inr (by simpa [keys] using h1)), hp⟩
      · refine ⟨n2, rest2, Or.inr ?_, hp⟩
        exact ((eraseName_sublist r n).map Prod.fst).subset h1
  · intro rel n lcs ih t h
    rw [show branchPlan rel n (some (FS.dir lcs)) none =
        Plan.union (Plan.oneMkdir (rel ++ [n])) (planDir (rel ++ [n]) lcs []) from by
      simp [branchPlan]] at h
    rcases tagMem_union.mp h with h | h
    · refine ⟨[], ?_⟩
      rw [tagMem_oneMkdir.mp h]
      simp [PTag.path]
    · obtain ⟨n2, rest2, _, hp⟩ := ih t h
      exact ⟨n2 :: rest2, by simpa using hp⟩
  · intro rel n st content t h
    rw [show branchPlan rel n (some (FS.file st content)) none =
        Plan.oneCopy (rel ++ [n]) st from by simp [branchPlan]] at h
    refine ⟨[], ?_⟩
    rw [tagMem_oneCopy.mp h]
    simp [PTag.path]
  · intro rel n rcs ih t h
    rw [show branchPlan rel n none (some (FS.dir rcs)) =
        Plan.union (Plan.oneRmdir (rel ++ [n])) (planDir (rel ++ [n]) [] rcs) from by
      simp [branchPlan]] at h
    rcases tagMem_union.mp h with h | h
    · refine ⟨[], ?_⟩
      rw [tagMem_oneRmdir.mp h]
      simp [PTag.path]
    · obtain ⟨n2, rest2, _, hp⟩ := ih t h
      exact ⟨n2 :: rest2, by simpa using hp⟩
  · intro rel n st content t h
    rw [show branchPlan rel n none (some (FS.file st content)) =
        Plan.oneRmfile (rel ++ [n]) from by simp [branchPlan]] at h
    refine ⟨[], ?_⟩
    rw [tagMem_oneRmfile.mp h]
    simp [PTag.path]
  · intro x x1 t h
    rw [show branchPlan x x1 none none = Plan.empty from by simp [branchPlan]] at h
    exact absurd h tagMem_empty
  · intro rel n lcs rcs ih t h
    rw [show branchPlan rel n (some (FS.dir lcs)) (some (FS.dir rcs)) =
        planDir (rel ++ [n]) lcs rcs from by simp [branchPlan]] at h
    obtain ⟨n2, rest2, _, hp⟩ := ih t h
    exact ⟨n2 :: rest2, by simpa using hp⟩
  · intro rel n lcs st content ih t h
    rw [show branchPlan rel n (some (FS.dir lcs)) (some (FS.file st content)) =
        Plan.union (Plan.oneRmfile (rel ++ [n])) (planDir (rel ++ [n]) lcs []) from by
      simp [branchPlan]] at h
    rcases tagMem_union.mp h with h | h
    · refine ⟨[], ?_⟩
      rw [tagMem_oneRmfile.mp h]
      simp [PTag.path]
    · obtain ⟨n2, rest2, _, hp⟩ := ih t h
      exact ⟨n2 :: rest2, by simpa using hp⟩
  · intro rel n st content rcs ih t h
    rw [show branchPlan rel n (some (FS.file st content)) (some (FS.dir rcs)) =
        Plan.union (Plan.union (Plan.oneRmdir (rel ++ [n])) (Plan.oneCopy (rel ++ [n]) st))
          (planDir (rel ++ [n]) [] rcs) from by simp [branchPlan]] at h
    rcases tagMem_union.mp h with h | h
    · rcases tagMem_union.mp h with h | h
      · refine ⟨[], ?_⟩
        rw [tagMem_oneRmdir.mp h]
        simp [PTag.path]
      · refine ⟨[], ?_⟩
        rw [tagMem_oneCopy.mp h]
        simp [PTag.path]
    · obtain ⟨n2, rest2, _, hp⟩ := ih t h
      exact ⟨n2 :: rest2, by simpa using hp⟩
  · intro rel n stl content str content2 t h
    rw [show branchPlan rel n (some (FS.file stl content)) (some (FS.file str content2)) =
        Plan.union
          (if stl.size ≠ str.size then Plan.oneCopy (rel ++ [n]) stl else Plan.empty)
          (if stl.mtime ≠ str.mtime then Plan.oneCopy (rel ++ [n]) stl else Plan.empty)
        from by simp [branchPlan]] at h
    rcases tagMem_union.mp h with h | h <;> split at h
    · refine ⟨[], ?_⟩
      rw [tagMem_oneCopy.mp h]
      simp [PTag.path]
    · exact absurd h tagMem_empty
    · refine ⟨[], ?_⟩
      rw [tagMem_oneCopy.mp h]
      simp [PTag.path]
    · exact absurd h tagMem_empty

theorem branchPlan_shape {rel : List String} {n : String} {lo ro : Option FS} {t : PTag}
    (h : (branchPlan rel n lo ro).tagMem t) : ∃ rest, t.path = rel ++ n :: rest := by
  have key : ∀ (l r : List (String × FS)), (planDir rel l r).tagMem t →
      keys l ⊆ [n] → keys r ⊆ [n] → ∃ rest, t.path = rel ++ n :: rest := by
    intro l r hm hl hr
    obtain ⟨n2, rest, hor, hp⟩ := planDir_shape rel l r t hm
    have hn : n2 = n := by
      rcases hor with h1 | h1
      · simpa using hl h1
      · simpa using hr h1
    exact ⟨rest, hn ▸ hp⟩
  cases lo with
  | none =>
    cases ro with
    | none =>
      rw [show branchPlan rel n none none = Plan.empty from by simp [branchPlan]] at h
      exact absurd h tagMem_empty
    | some d =>
      refine key [] [(n, d)] ?_ (by simp [keys]) (by simp [keys])
      rw [show planDir rel [] [(n, d)] =
          Plan.union (branchPlan rel n none (some d)) (planDir rel [] []) from by
        simp [planDir]]
      exact tagMem_union.mpr (Or.inl h)
  | some c =>
    cases ro with
    | none =>
      refine key [(n, c)] [] ?_ (by simp [keys]) (by simp [keys])
      rw [show planDir rel [(n, c)] [] =
          Plan.union (branchPlan rel n (some c) (lookupName [] n))
            (planDir rel [] (eraseName [] n)) from by simp [planDir]]
      exact tagMem_union.mpr (Or.inl (by simpa [lookupName] using h))
    | some d =>
      refine key [(n, c)] [(n, d)] ?_ (by simp [keys]) (by simp [keys])
      rw [show planDir rel [(n, c)] [(n, d)] =
          Plan.union (branchPlan rel n (some c) (lookupName [(n, d)] n))
            (planDir rel [] (eraseName [(n, d)] n)) from by simp [planDir]]
      exact tagMem_union.mpr (Or.inl (by simpa [lookupName] using h))

theorem planDir_absent {rel : List String} {l r : List (String × FS)} {m : String}
    {rest : List String} {t : PTag} (hl : lookupName l m = none)
    (hr : lookupName r m = none) (hp : t.path = rel ++ m :: rest) :
    ¬ (planDir rel l r).tagMem t := by
  intro h
  obtain ⟨n2, rest2, hor, hp2⟩ := planDir_shape rel l r t h
  have : n2 = m := by
    have := hp ▸ hp2
    have h2 := List.append_cancel_left this.symm
    exact (List.cons.injEq _ _ _ _ ▸ h2).1
  subst this
  rcases hor with h1 | h1
  · exact (lookupName_eq_none_iff.mp hl) h1
  · exact (lookupName_eq_none_iff.mp hr) h1

theorem branchPlan_other {rel : List String} {k m : String} {lo ro : Option FS}
    {rest : List String} {t : PTag} (hk : k ≠ m) (hp : t.path = rel ++ m :: rest) :
    ¬ (branchPlan rel k lo ro).tagMem t := by
  intro h
  obtain ⟨rest2, hp2⟩ := branchPlan_shape h
  have := hp ▸ hp2
  have h2 := List.append_cancel_left this.symm
  exact hk (List.cons.injEq _ _ _ _ ▸ h2).1

theorem planDir_decomp_emptyL : ∀ (r : List (String × FS)) (rel : List String)
    (m : String) (rest : List String) (t : PTag), keysNodup r = true →
    t.path = rel ++ m :: rest →
    ((planDir rel [] r).tagMem t ↔ (branchPlan rel m none (lookupName r m)).tagMem t) := by
  intro r
  induction r with
  | nil =>
    intro rel m rest t _ _
    rw [show planDir rel [] [] = Plan.empty from by simp [planDir]]
    rw [show lookupName [] m = none from rfl]
    rw [show branchPlan rel m none none = Plan.empty from by simp [branchPlan]]
  | cons c r ih =>
    obtain ⟨k, d⟩ := c
    intro rel m rest t hn hp
    rw [show planDir rel [] ((k, d) :: r) =
        Plan.union (branchPlan rel k none (some d)) (planDir rel [] r) from by
      simp [planDir]]
    rw [tagMem_union]
    by_cases hk : k = m
    · subst hk
      rw [show lookupName ((k, d) :: r) k = some d from by simp [lookupName]]
      constructor
      · rintro (h | h)
        · exact h
        · exact absurd h (planDir_absent rfl (lookupName_tail_of_nodup hn) hp)
      · exact Or.inl
    · rw [lookupName_cons_ne hk]
      constructor
      · rintro (h | h)
        · exact absurd h (@branchPlan_other rel k m none (some d) rest t hk hp)
        · exact (ih rel m rest t (keysNodup_cons.mp hn).2 hp).mp h
      · intro h
        exact Or.inr ((ih rel m rest t (keysNodup_cons.mp hn).2 hp).mpr h)

theorem planDir_decomp : ∀ (l r : List (String × FS)) (rel : List String)
    (m : String) (rest : List String) (t : PTag),
    keysNodup l = true → keysNodup r = true → t.path = rel ++ m :: rest →
    ((planDir rel l r).tagMem t ↔
      (branchPlan rel m (lookupName l m) (lookupName r m)).tagMem t) := by
  intro l
  induction l with
  | nil =>
    intro r rel m rest t _ hnr hp
    exact planDir_decomp_emptyL r rel m rest t hnr hp
  | cons c l ih =>
    obtain ⟨k, d⟩ := c
    intro r rel m rest t hnl hnr hp
    rw [show planDir rel ((k, d) :: l) r =
        Plan.union (branchPlan rel k (some d) (lookupName r k))
          (planDir rel l (eraseName r k)) from by simp [planDir]]
    rw [tagMem_union]
    by_cases hk : k = m
    · subst hk
      rw [show lookupName ((k, d) :: l) k = some d from by simp [lookupName]]
      constructor
      · rintro (h | h)
        · exact h
        · exact absurd h (planDir_absent (lookupName_tail_of_nodup hnl)
            (lookupName_eraseName_self hnr) hp)
      · exact Or.inl
    · rw [lookupName_cons_ne hk]
      have hnl2 := (keysNodup_cons.mp hnl).2
      have hnr2 := keysNodup_of_sublist (eraseName_sublist r k) hnr
      have heq : lookupName (eraseName r k) m = lookupName r m :=
        lookupName_eraseName_ne (Ne.symm hk)
      constructor
      · rintro (h | h)
        · exact absurd h (@branchPlan_other rel k m (some d) (lookupName r k) rest t hk hp)
        · have h2 := (ih (eraseName r k) rel m rest t hnl2 hnr2 hp).mp h
          rwa [heq] at h2
      · intro h
        refine Or.inr ((ih (eraseName r k) rel m rest t hnl2 hnr2 hp).mpr ?_)
        rwa [heq]

theorem nodeAt_singleton {lo : Option FS} {n : String} {c : FS}
    (h : nodeAt lo [n] = some c) :
    ∃ cs, lo = some (.dir cs) ∧ lookupName cs n = some c := by
  match lo with
  | none => simp [nodeAt] at h
  | some (.file st cl) => simp [nodeAt] at h
  | some (.dir cs) =>
    refine ⟨cs, rfl, ?_⟩
    rw [show nodeAt (some (FS.dir cs)) [n] = nodeAt (lookupName cs n) [] from rfl] at h
    rwa [show nodeAt (lookupName cs n) [] = lookupName cs n from by simp [nodeAt]] at h

theorem nodeAt_cons {lo : Option FS} {m : String} {p : List String} {c : FS}
    (hp : p ≠ []) (h : nodeAt lo (m :: p) = some c) :
    ∃ cs ccs, lo = some (.dir cs) ∧ lookupName cs m = some (.dir ccs) ∧
      nodeAt (some (.dir ccs)) p = some c := by
  match lo with
  | none => simp [nodeAt] at h
  | some (.file st cl) => simp [nodeAt] at h
  | some (.dir cs) =>
    rw [show nodeAt (some (FS.dir cs)) (m :: p) = nodeAt (lookupName cs m) p from rfl] at h
    match hl : lookupName cs m with
    | none =>
      rw [hl] at h
      obtain ⟨q, qs, rfl⟩ := List.exists_cons_of_ne_nil hp
      simp [nodeAt] at h
    | some (.file st cl) =>
      rw [hl] at h
      obtain ⟨q, qs, rfl⟩ := List.exists_cons_of_ne_nil hp
      simp [nodeAt] at h
    | some (.dir ccs) =>
      rw [hl] at h
      exact ⟨cs, ccs, rfl, hl, h⟩

theorem planDir_file_file : ∀ (p : List String) (rel : List String) (lo ro : Option FS)
    (n : String) (stl str : Stat) (cl cr : List Nat),
    wfOpt lo = true → wfOpt ro = true →
    nodeAt lo (p ++ [n]) = some (.file stl cl) →
    nodeAt ro (p ++ [n]) = some (.file str cr) →
    ∀ t : PTag, t.path = rel ++ p ++ [n] →
    ((planDir rel (listing lo) (listing ro)).tagMem t ↔
      (t = .inCopy (rel ++ p ++ [n]) stl ∧
        (stl.size ≠ str.size ∨ stl.mtime ≠ str.mtime))) := by
  intro p
  induction p with
  | nil =>
    intro rel lo ro n stl str cl cr hwl hwr hl hr t ht
    obtain ⟨lcs, rfl, hl2⟩ := nodeAt_singleton (by simpa using hl)
    obtain ⟨rcs, rfl, hr2⟩ := nodeAt_singleton (by simpa using hr)
    have hnl : keysNodup lcs = true := by
      simp only [wfOpt] at hwl
      exact (wfFS_dir_iff.mp hwl).1
    have hnr : keysNodup rcs = true := by
      simp only [wfOpt] at hwr
      exact (wfFS_dir_iff.mp hwr).1
    have ht2 : t.path = rel ++ n :: [] := by simpa using ht
    rw [show listing (some (FS.dir lcs)) = lcs from rfl,
      show listing (some (FS.dir rcs)) = rcs from rfl]
    rw [planDir_decomp lcs rcs rel n [] t hnl hnr ht2, hl2, hr2]
    rw [show branchPlan rel n (some (FS.file stl cl)) (some (FS.file str cr)) =
        Plan.union
          (if stl.size ≠ str.size then Plan.oneCopy (rel ++ [n]) stl else Plan.empty)
          (if stl.mtime ≠ str.mtime then Plan.oneCopy (rel ++ [n]) stl else Plan.empty)
        from by simp [branchPlan]]
    by_cases hs : stl.size = str.size <;> by_cases hm : stl.mtime = str.mtime <;>
      simp [tagMem_union, tagMem_oneCopy, tagMem_empty, hs, hm]
  | cons m p2 ih =>
    intro rel lo ro n stl str cl cr hwl hwr hl hr t ht
    have hne : p2 ++ [n] ≠ [] := by simp
    rw [show (m :: p2) ++ [n] = m :: (p2 ++ [n]) from rfl] at hl hr
    obtain ⟨lcs, lccs, rfl, hlk, hl2⟩ := nodeAt_cons hne hl
    obtain ⟨rcs, rccs, rfl, hrk, hr2⟩ := nodeAt_cons hne hr
    have hnl : keysNodup lcs = true := by
      simp only [wfOpt] at hwl
      exact (wfFS_dir_iff.mp hwl).1
    have hnr : keysNodup rcs = true := by
      simp only [wfOpt] at hwr
      exact (wfFS_dir_iff.mp hwr).1
    have hwl2 : wfOpt (some (FS.dir lccs)) = true := by
      simp only [wfOpt] at hwl ⊢
      exact wfChildren_lookup (wfFS_dir_iff.mp hwl).2 hlk
    have hwr2 : wfOpt (some (FS.dir rccs)) = true := by
      simp only [wfOpt] at hwr ⊢
      exact wfChildren_lookup (wfFS_dir_iff.mp hwr).2 hrk
    have ht2 : t.path = rel ++ m :: (p2 ++ [n]) := by
      rw [ht]
      simp
    rw [show listing (some (FS.dir lcs)) = lcs from rfl,
      show listing (some (FS.dir rcs)) = rcs from rfl]
    rw [planDir_decomp lcs rcs rel m (p2 ++ [n]) t hnl hnr ht2, hlk, hrk]
    rw [show branchPlan rel m (some (FS.dir lccs)) (some (FS.dir rccs)) =
        planDir (rel ++ [m]) lccs rccs from by simp [branchPlan]]
    have hres := ih (rel ++ [m]) (some (FS.dir lccs)) (some (FS.dir rccs)) n stl str cl cr
      hwl2 hwr2 hl2 hr2 t (by rw [ht] ; simp)
    rw [show listing (some (FS.dir lccs)) = lccs from rfl,
      show listing (some (FS.dir rccs)) = rccs from rfl] at hres
    rw [hres]
    constructor
    · rintro ⟨rfl, h2⟩
      exact ⟨by simp, h2⟩
    · rintro ⟨rfl, h2⟩
      exact ⟨by simp, h2⟩

/-- C1: for every relative path that is a regular file on both the source
and the destination, the comparator puts the pair (path, source stat) into
the `copy` set if and only if the two sizes differ or the two modification
times differ; when size and modification time both agree, the path appears
in no plan set at all, whatever the two files' contents are (the comparator
never reads content). -/
theorem claim1_file_file_copy_iff (A B : Option FS) (p : List String) (n : String)
    (stl str : Stat) (cl cr : List Nat)
    (hA : wfOpt A = true) (hB : wfOpt B = true)
    (hl : nodeAt A (p ++ [n]) = some (.file stl cl))
    (hr : nodeAt B (p ++ [n]) = some (.file str cr)) :
    (((p ++ [n], stl) ∈ (planFS A B).copy ↔
        (stl.size ≠ str.size ∨ stl.mtime ≠ str.mtime))
      ∧ (stl.size = str.size → stl.mtime = str.mtime →
          (p ++ [n]) ∉ (planFS A B).mkdir ∧ (p ++ [n]) ∉ (planFS A B).rmdir ∧
          (p ++ [n]) ∉ (planFS A B).rmfile ∧ (p ++ [n]) ∉ (planFS A B).rmlink ∧
          ∀ st, (p ++ [n], st) ∉ (planFS A B).copy)) := by
  have key := planDir_file_file p [] A B n stl str cl cr hA hB hl hr
  constructor
  · have h1 := key (.inCopy (p ++ [n]) stl) (by simp [PTag.path])
    simpa [planFS, Plan.tagMem] using h1
  · intro hs hm
    refine ⟨?_, ?_, ?_, ?_, ?_⟩
    · intro hmem
      have h2 := (key (.inMkdir (p ++ [n])) (by simp [PTag.path])).mp
        (by simpa [planFS, Plan.tagMem] using hmem)
      simp [hs, hm] at h2
    · intro hmem
      have h2 := (key (.inRmdir (p ++ [n])) (by simp [PTag.path])).mp
        (by simpa [planFS, Plan.tagMem] using hmem)
      simp [hs, hm] at h2
    · intro hmem
      have h2 := (key (.inRmfile (p ++ [n])) (by simp [PTag.path])).mp
        (by simpa [planFS, Plan.tagMem] using hmem)
      simp [hs, hm] at h2
    · intro hmem
      have h2 := (key (.inRmlink (p ++ [n])) (by simp [PTag.path])).mp
        (by simpa [planFS, Plan.tagMem] using hmem)
      simp [hs, hm] at h2
    · intro st hmem
      have h2 := (key (.inCopy (p ++ [n]) st) (by simp [PTag.path])).mp
        (by simpa [planFS, Plan.tagMem] using hmem)
      simp [hs, hm] at h2

/-- Witness for `claim1_file_file_copy_iff` at a concrete pair of trees
whose file `a` has size 1 on the source and size 2 on the destination. -/
theorem claim1_witness :
    wfOpt (some exW1Src) = true ∧ wfOpt (some exW1Dst) = true ∧
    ((["a"], (⟨1, 2, 3⟩ : Stat)) ∈ (planFS (some exW1Src) (some exW1Dst)).copy ↔
      ((⟨1, 2, 3⟩ : Stat).size ≠ (⟨2, 2, 3⟩ : Stat).size ∨
        (⟨1, 2, 3⟩ : Stat).mtime ≠ (⟨2, 2, 3⟩ : Stat).mtime)) :=
  ⟨by simp [wfOpt, wfFS, wfChildren, keysNodup, exW1Src],
   by simp [wfOpt, wfFS, wfChildren, keysNodup, exW1Dst],
   (claim1_file_file_copy_iff (some exW1Src) (some exW1Dst) [] "a"
     ⟨1, 2, 3⟩ ⟨2, 2, 3⟩ [9] [8, 8]
     (by simp [wfOpt, wfFS, wfChildren, keysNodup, exW1Src])
     (by simp [wfOpt, wfFS, wfChildren, keysNodup, exW1Dst])
     (by simp [nodeAt, lookupName, exW1Src])
     (by simp [nodeAt, lookupName, exW1Dst])).1⟩

theorem charLex_append (l : List Char) {t : List Char} (ht : t ≠ []) :
    List.Lex (fun a b : Char => a < b) l (l ++ t) := by
  induction l with
  | nil =>
    obtain ⟨c, cs, rfl⟩ := List.exists_cons_of_ne_nil ht
    exact List.Lex.nil
  | cons a l ih => exact List.Lex.cons ih

theorem strLt_append (s : String) {u : String} (hu : u.data ≠ []) : s < s ++ u := by
  rw [String.lt_iff_toList_lt]
  rw [show (s ++ u).toList = s.toList ++ u.toList from by
    simp [String.toList, String.data_append]]
  exact charLex_append s.toList (by simpa [String.toList] using hu)

theorem strLt_empty {u : String} (hu : u.data ≠ []) : "" < u := by
  rw [String.lt_iff_toList_lt]
  obtain ⟨c, cs, hc⟩ := List.exists_cons_of_ne_nil
    (show u.toList ≠ [] by simpa [String.toList] using hu)
  rw [show ("" : String).toList = ([] : List Char) from rfl, hc]
  exact List.Lex.nil

theorem pathStr_cons_cons (x z : String) (l : List String) :
    pathStr (x :: z :: l) = x ++ "/" ++ pathStr (z :: l) := by
  simp [pathStr]

theorem pathStr_append {p : List String} (q : List String) (hp : p ≠ []) (hq : q ≠ []) :
    pathStr (p ++ q) = pathStr p ++ "/" ++ pathStr q := by
  induction p with
  | nil => exact absurd rfl hp
  | cons x p ih =>
    cases p with
    | nil =>
      obtain ⟨y, ys, rfl⟩ := List.exists_cons_of_ne_nil hq
      simp [pathStr]
    | cons z zs =>
      rw [show (x :: z :: zs) ++ q = x :: ((z :: zs) ++ q) from rfl]
      obtain ⟨w, ws, hw⟩ := List.exists_cons_of_ne_nil
        (show (z :: zs) ++ q ≠ [] by simp)
      rw [hw, pathStr_cons_cons, ← hw, ih (by simp), pathStr_cons_cons]
      simp [String.append_assoc]

theorem pathStr_data_ne_nil {t : List String} (ht : t ≠ []) (hv : ∀ s ∈ t, s ≠ "") :
    (pathStr t).data ≠ [] := by
  obtain ⟨x, xs, rfl⟩ := List.exists_cons_of_ne_nil ht
  have hx : x ≠ "" := hv x (by simp)
  cases xs with
  | nil =>
    intro hd
    rw [show pathStr [x] = x from by simp [pathStr]] at hd
    exact hx (String.ext hd)
  | cons y ys =>
    rw [pathStr_cons_cons]
    rw [show (x ++ "/" ++ pathStr (y :: ys)).data =
      (x.data ++ ('/' :: [])) ++ (pathStr (y :: ys)).data from by
        rw [String.data_append, String.data_append]]
    simp

theorem isAncestor_ne {p q : List String} (h : isAncestor p q) : p ≠ q := by
  obtain ⟨t, ht, rfl⟩ := h
  intro he
  have hlen := congrArg List.length he
  rw [List.length_append] at hlen
  have h0 : t.length = 0 := by omega
  exact ht (List.length_eq_zero.mp h0)

theorem pathStr_lt_of_isAncestor {p q : List String} (hq : ∀ s ∈ q, s ≠ "")
    (ha : isAncestor p q) : pathStr p < pathStr q := by
  obtain ⟨t, ht, rfl⟩ := ha
  have hvt : ∀ s ∈ t, s ≠ "" := fun s hs => hq s (List.mem_append.mpr (Or.inr hs))
  cases p with
  | nil =>
    rw [show pathStr ([] : List String) = "" from rfl, List.nil_append]
    exact strLt_empty (pathStr_data_ne_nil ht hvt)
  | cons x xs =>
    rw [pathStr_append t (by simp) ht, String.append_assoc]
    apply strLt_append
    rw [String.data_append]
    rw [show ("/" : String).data = ['/'] from rfl]
    simp

/-- C2: `execute` applies the plan in the fixed phase order — ensure the
destination root exists, dispatch the `rmfile` removals, remove the `rmdir`
paths in reverse lexical order (every directory comes strictly before each
of its ancestors), create the `mkdir` paths in forward lexical order
(ancestors strictly first), then run the copies in descending order of
source stat size — each phase one contiguous block of the trace, so a phase
is fully dispatched before the next begins. -/
theorem claim2_execute_phase_order (left right : String) (plans : Plan)
    (rightExists : Bool) (srcOk dstOk : List String → Bool)
    (hvr : ∀ p ∈ plans.rmdir, validRel p) (hvm : ∀ p ∈ plans.mkdir, validRel p) :
    (execTrace left right plans rightExists srcOk dstOk =
      (if rightExists then [] else [Op.makedirs right])
      ++ plans.rmfile.map (fun f => Op.unlink (pjoin right (pathStr f)))
      ++ (rmdirSorted plans).map (fun d => Op.rmdir (pjoin right (pathStr d)))
      ++ (mkdirSorted plans).map (fun d => Op.makedirs (pjoin right (pathStr d)))
      ++ (copySorted plans).flatMap (fun pc =>
          copyPipeline left right (pathStr pc.1) pc.2 (srcOk pc.1) (dstOk pc.1)))
    ∧ List.Sorted descPath (rmdirSorted plans)
    ∧ (∀ i j : Fin (rmdirSorted plans).length,
        isAncestor ((rmdirSorted plans).get i) ((rmdirSorted plans).get j) →
          (j : Nat) < (i : Nat))
    ∧ List.Sorted ascPath (mkdirSorted plans)
    ∧ (∀ i j : Fin (mkdirSorted plans).length,
        isAncestor ((mkdirSorted plans).get i) ((mkdirSorted plans).get j) →
          (i : Nat) < (j : Nat))
    ∧ List.Sorted bySizeDesc (copySorted plans) := by
  refine ⟨rfl, ?_, ?_, ?_, ?_, ?_⟩
  · exact List.sorted_insertionSort descPath plans.rmdir
  · intro i j hanc
    have hj : (rmdirSorted plans).get j ∈ plans.rmdir :=
      (List.mem_insertionSort descPath).mp (List.get_mem _ j.1 j.2)
    have hvj := hvr _ hj
    have hlt : pathStr ((rmdirSorted plans).get i) < pathStr ((rmdirSorted plans).get j) :=
      pathStr_lt_of_isAncestor hvj.2 hanc
    rcases lt_trichotomy (i : Nat) (j : Nat) with h | h | h
    · have h2 := (List.sorted_insertionSort descPath plans.rmdir).rel_get_of_lt
        (show i < j from h)
      exact absurd hlt (not_lt.mpr h2)
    · have h2 : (rmdirSorted plans).get i = (rmdirSorted plans).get j := by
        congr 1
        exact Fin.ext h
      exact absurd h2 (isAncestor_ne hanc)
    · exact h
  · exact List.sorted_insertionSort ascPath plans.mkdir
  · intro i j hanc
    have hj : (mkdirSorted plans).get j ∈ plans.mkdir :=
      (List.mem_insertionSort ascPath).mp (List.get_mem _ j.1 j.2)
    have hvj := hvm _ hj
    have hlt : pathStr ((mkdirSorted plans).get i) < pathStr ((mkdirSorted plans).get j) :=
      pathStr_lt_of_isAncestor hvj.2 hanc
    rcases lt_trichotomy (i : Nat) (j : Nat) with h | h | h
    · exact h
    · have h2 : (mkdirSorted plans).get i = (mkdirSorted plans).get j := by
        congr 1
        exact Fin.ext h
      exact absurd h2 (isAncestor_ne hanc)
    · have h2 := (List.sorted_insertionSort ascPath plans.mkdir).rel_get_of_lt
        (show j < i from h)
      exact absurd (lt_of_lt_of_le hlt h2) (lt_irrefl _)
  · exact List.sorted_insertionSort bySizeDesc plans.copy

/-- Witness for `claim2_execute_phase_order` on a concrete plan. -/
theorem claim2_witness :
    (∀ p ∈ exPlan.rmdir, validRel p) ∧ (∀ p ∈ exPlan.mkdir, validRel p) ∧
    List.Sorted descPath (rmdirSorted exPlan) ∧
    List.Sorted bySizeDesc (copySorted exPlan) :=
  ⟨by decide, by decide,
   (claim2_execute_phase_order "src" "dst" exPlan true (fun _ => true) (fun _ => true)
     (by decide) (by decide)).2.1,
   (claim2_execute_phase_order "srcB" "dstB" exPlan true (fun _ => true) (fun _ => true)
     (by decide) (by decide)).2.2.2.2.2⟩

theorem mem_copyPipeline_frame {left right relp : String} {st : Stat}
    {srcOk dstOk : Bool} {op : Op}
    (h : op ∈ copyPipeline left right relp st srcOk dstOk) :
    (op.mutates = true → op.path = pjoin right relp) ∧
    (∀ q, op = Op.openR q → q = pjoin left relp) := by
  cases srcOk <;> cases dstOk <;>
    cases op <;>
    simp [copyPipeline, Op.mutates, Op.path] at h ⊢ <;>
    simp_all

theorem mem_execTrace_frame {left right : String} {plans : Plan} {rightExists : Bool}
    {srcOk dstOk : List String → Bool} {op : Op}
    (h : op ∈ execTrace left right plans rightExists srcOk dstOk) :
    (op.mutates = true → underRoot right op.path) ∧
    (∀ q, op = Op.openR q → ∃ rel2, q = pjoin left rel2) := by
  simp only [execTrace, List.mem_append] at h
  rcases h with ((((h | h) | h) | h) | h)
  · rcases rightExists with _ | _
    · simp at h
      subst h
      refine ⟨fun _ => Or.inl rfl, ?_⟩
      intro q hq
      simp at hq
    · simp at h
  · obtain ⟨f, _, rfl⟩ := List.mem_map.mp h
    refine ⟨fun _ => Or.inr ⟨pathStr f, rfl⟩, ?_⟩
    intro q hq
    simp at hq
  · obtain ⟨d, _, rfl⟩ := List.mem_map.mp h
    refine ⟨fun _ => Or.inr ⟨pathStr d, rfl⟩, ?_⟩
    intro q hq
    simp at hq
  · obtain ⟨d, _, rfl⟩ := List.mem_map.mp h
    refine ⟨fun _ => Or.inr ⟨pathStr d, rfl⟩, ?_⟩
    intro q hq
    simp at hq
  · obtain ⟨pc, _, hop⟩ := List.mem_flatMap.mp h
    have h2 := mem_copyPipeline_frame hop
    refine ⟨fun hm => Or.inr ⟨pathStr pc.1, h2.1 hm⟩, ?_⟩
    intro q hq
    exact ⟨pathStr pc.1, h2.2 q hq⟩

/-- C10: one-way frame property of `execute` (and hence of `sync`, whose
plan step issues no mutation at all): every mutating operation in the trace
(`makedirs`, `unlink`, `rmdir`, open-for-write, write, `utime`) targets the
destination root or a path joined under it, and every open of a
source-side file is an open for reading, at a path joined under the source
root. -/
theorem claim10_one_way_frame (left right : String) (plans : Plan)
    (rightExists : Bool) (srcOk dstOk : List String → Bool) (op : Op)
    (h : op ∈ execTrace left right plans rightExists srcOk dstOk) :
    (op.mutates = true → underRoot right op.path) ∧
    (∀ q, op = Op.openR q → ∃ rel2, q = pjoin left rel2) :=
  mem_execTrace_frame h

/-- Witness for `claim10_one_way_frame`: the `rmfile` removal of `x` in the
concrete plan `exPlan` targets a path under the destination root. -/
theorem claim10_witness :
    (Op.unlink (pjoin "dst" (pathStr ["x"])) ∈
      execTrace "src" "dst" exPlan true (fun _ => true) (fun _ => true)) ∧
    underRoot "dst" (Op.unlink (pjoin "dst" (pathStr ["x"]))).path :=
  ⟨by decide,
   (claim10_one_way_frame "src" "dst" exPlan true (fun _ => true) (fun _ => true)
     (Op.unlink (pjoin "dst" (pathStr ["x"]))) (by decide)).1 rfl⟩

/-- C8 (amended): `plan` canonicalizes both roots
(`normcase(normpath(...))`) for its own walk, but `sync` hands `execute`
the original `left` and `right` arguments, so every operation issued
during execution is joined from the original, un-canonicalized root
strings. -/
theorem claim8_amended_raw_roots (left right : String) (A B : Option FS)
    (rightExists : Bool) (srcOk dstOk : List String → Bool) (op : Op)
    (h : op ∈ syncOps left right A B rightExists srcOk dstOk) :
    (op.mutates = true → underRoot right op.path) ∧
    (∀ q, op = Op.openR q → ∃ rel2, q = pjoin left rel2) :=
  mem_execTrace_frame h

/-- Witness for `claim8_amended_raw_roots`: with both trees absent,
`sync("L//s", "R//t")` still creates the destination root, at the raw
(un-normalized) string `"R//t"`. -/
theorem claim8_witness :
    (Op.makedirs "R//t" ∈
      syncOps "L//s" "R//t" none none false (fun _ => true) (fun _ => true)) ∧
    underRoot "R//t" (Op.makedirs "R//t").path := by
  have hplan : planFS none none = Plan.empty := by
    simp [planFS, planDir, listing]
  have hm : Op.makedirs "R//t" ∈
      syncOps "L//s" "R//t" none none false (fun _ => true) (fun _ => true) := by
    rw [syncOps, hplan]
    decide
  exact ⟨hm, (claim8_amended_raw_roots "L//s" "R//t" none none false
    (fun _ => true) (fun _ => true) (Op.makedirs "R//t") hm).1 rfl⟩

/-- C8 counterexample: with destination root `"dst//b"`, `plan`
canonicalizes the root to `"dst/b"`, yet the removal issued by
`sync` joins the relative path `g` with the original `"dst//b"`: the
canonicalized form is not the one used for the joins performed during
execution. -/
theorem claim8_counterexample :
    planRoot "dst//b" = "dst/b" ∧
    planRoot "dst//b" ≠ "dst//b" ∧
    (Op.unlink (pjoin "dst//b" (pathStr ["g"])) ∈
      syncOps "src" "dst//b" none (some exDstOnlyFile) true
        (fun _ => true) (fun _ => true)) ∧
    (Op.unlink (pjoin (planRoot "dst//b") (pathStr ["g"])) ∉
      syncOps "src" "dst//b" none (some exDstOnlyFile) true
        (fun _ => true) (fun _ => true)) := by
  have hplan : planFS none (some exDstOnlyFile) = ⟨[], [["g"]], [], [], []⟩ := by
    simp [planFS, planDir, branchPlan, listing, exDstOnlyFile, lookupName, eraseName,
      Plan.union, Plan.empty, Plan.oneRmfile]
  refine ⟨by decide, by decide, ?_, ?_⟩
  · rw [syncOps, hplan]
    decide
  · rw [syncOps, hplan]
    decide

/-- C3 evaluated at the failing input (source: directory `d` holding one
file `f`; destination: regular file `d`).  The comparator does add `d` to
`rmfile` and walks into the directory (it plans the copy of `d/f`), but it
never adds `d` to `mkdir`; executing the plan removes the file, the copy of
`d/f` then fails silently because its parent directory is never created,
and `sync` completes with the destination empty — the claimed populated
directory does not exist. -/
theorem claim3_dir_over_file_eval :
    (["d"] ∈ (planFS (some exSrcDirOverFile) (some exDstDirOverFile)).rmfile) ∧
    ((["d", "f"], (⟨3, 5, 7⟩ : Stat)) ∈
      (planFS (some exSrcDirOverFile) (some exDstDirOverFile)).copy) ∧
    (["d"] ∉ (planFS (some exSrcDirOverFile) (some exDstDirOverFile)).mkdir) ∧
    syncFS (some exSrcDirOverFile) (some exDstDirOverFile) = .ok (.dir []) ∧
    nodeAt (some (FS.dir [])) ["d"] = none := by
  have hplan : planFS (some exSrcDirOverFile) (some exDstDirOverFile) =
      ⟨[], [["d"]], [], [], [(["d", "f"], ⟨3, 5, 7⟩)]⟩ := by
    simp [planFS, planDir, branchPlan, listing, exSrcDirOverFile, exDstDirOverFile,
      lookupName, eraseName, Plan.union, Plan.empty, Plan.oneRmfile, Plan.oneCopy]
  refine ⟨?_, ?_, ?_, ?_, rfl⟩
  · rw [hplan]
    decide
  · rw [hplan]
    decide
  · rw [hplan]
    decide
  · rw [syncFS, hplan]
    rfl

/-- C4 evaluated at the failing input: `sync` completes without a fatal
error (the contained copy failure is only logged), yet the plan recomputed
against the resulting destination is not empty — it still wants `mkdir d`
and the copy of `d/f` — so the second run is not a no-op. -/
theorem claim4_idempotence_eval :
    syncFS (some exSrcDirOverFile) (some exDstDirOverFile) = .ok (.dir []) ∧
    planFS (some exSrcDirOverFile) (some (FS.dir [])) ≠ Plan.empty ∧
    (["d"] ∈ (planFS (some exSrcDirOverFile) (some (FS.dir []))).mkdir) ∧
    ((["d", "f"], (⟨3, 5, 7⟩ : Stat)) ∈
      (planFS (some exSrcDirOverFile) (some (FS.dir []))).copy) := by
  have hplan : planFS (some exSrcDirOverFile) (some exDstDirOverFile) =
      ⟨[], [["d"]], [], [], [(["d", "f"], ⟨3, 5, 7⟩)]⟩ := by
    simp [planFS, planDir, branchPlan, listing, exSrcDirOverFile, exDstDirOverFile,
      lookupName, eraseName, Plan.union, Plan.empty, Plan.oneRmfile, Plan.oneCopy]
  have hplan2 : planFS (some exSrcDirOverFile) (some (FS.dir [])) =
      ⟨[], [], [], [["d"]], [(["d", "f"], ⟨3, 5, 7⟩)]⟩ := by
    simp [planFS, planDir, branchPlan, listing, exSrcDirOverFile,
      lookupName, eraseName, Plan.union, Plan.empty, Plan.oneMkdir, Plan.oneCopy]
  refine ⟨?_, ?_, ?_, ?_⟩
  · rw [syncFS, hplan]
    rfl
  · rw [hplan2]
    decide
  · rw [hplan2]
    decide
  · rw [hplan2]
    decide

theorem planDir_emptyL_no_creation : ∀ (rel : List String) (r : List (String × FS)),
    (planDir rel [] r).mkdir = [] ∧ (planDir rel [] r).copy = [] := by
  have main := planDir.induct
    (fun rel l r => l = [] →
      ((planDir rel l r).mkdir = [] ∧ (planDir rel l r).copy = []))
    (fun rel n lo ro => lo = none →
      ((branchPlan rel n lo ro).mkdir = [] ∧ (branchPlan rel n lo ro).copy = []))
    ?_ ?_ ?_ ?_ ?_ ?_ ?_ ?_ ?_ ?_ ?_ ?_
  · exact fun rel r => main rel [] r rfl
  · intro x _
    rw [show planDir x [] [] = Plan.empty from by simp [planDir]]
    exact ⟨rfl, rfl⟩
  · intro rel n c rest ih2 ih1 _
    rw [show planDir rel [] ((n, c) :: rest) =
        Plan.union (branchPlan rel n none (some c)) (planDir rel [] rest) from by
      simp [planDir]]
    have h2 := ih2 rfl
    have h1 := ih1 rfl
    simp [Plan.union, h1.1, h1.2, h2.1, h2.2]
  · intro rel n c rest r _ _ h
    simp at h
  · intro rel n lcs _ h
    simp at h
  · intro rel n st content h
    simp at h
  · intro rel n rcs ih _
    rw [show branchPlan rel n none (some (FS.dir rcs)) =
        Plan.union (Plan.oneRmdir (rel ++ [n])) (planDir (rel ++ [n]) [] rcs) from by
      simp [branchPlan]]
    have h1 := ih rfl
    simp [Plan.union, Plan.oneRmdir, h1.1, h1.2]
  · intro rel n st content _
    rw [show branchPlan rel n none (some (FS.file st content)) =
        Plan.oneRmfile (rel ++ [n]) from by simp [branchPlan]]
    exact ⟨rfl, rfl⟩
  · intro x x1 _
    rw [show branchPlan x x1 none none = Plan.empty from by simp [branchPlan]]
    exact ⟨rfl, rfl⟩
  · intro rel n lcs rcs _ h
    simp at h
  · intro rel n lcs st content _ h
    simp at h
  · intro rel n st content rcs _ h
    simp at h
  · intro rel n stl content str content2 h
    simp at h

theorem planDir_emptyL_schedules : ∀ (r : List (String × FS)) (rel : List String),
    (∀ n cs2, (n, FS.dir cs2) ∈ r → rel ++ [n] ∈ (planDir rel [] r).rmdir) ∧
    (∀ n st cl, (n, FS.file st cl) ∈ r → rel ++ [n] ∈ (planDir rel [] r).rmfile) := by
  intro r
  induction r with
  | nil =>
    intro rel
    simp
  | cons c r ih =>
    intro rel
    obtain ⟨k, d⟩ := c
    have heq : planDir rel [] ((k, d) :: r) =
        Plan.union (branchPlan rel k none (some d)) (planDir rel [] r) := by
      simp [planDir]
    constructor
    · intro n cs2 hmem
      rw [heq]
      rcases List.mem_cons.mp hmem with h1 | h1
      · obtain ⟨hk, hd⟩ := Prod.mk.injEq .. ▸ h1
        subst hk
        rw [show d = FS.dir cs2 from hd.symm ▸ rfl]
        simp [Plan.union, branchPlan, Plan.oneRmdir]
      · simp only [Plan.union, List.mem_append]
        exact Or.inr ((ih rel).1 n cs2 h1)
    · intro n st cl hmem
      rw [heq]
      rcases List.mem_cons.mp hmem with h1 | h1
      · obtain ⟨hk, hd⟩ := Prod.mk.injEq .. ▸ h1
        subst hk
        rw [show d = FS.file st cl from hd.symm ▸ rfl]
        simp [Plan.union, branchPlan, Plan.oneRmfile]
      · simp only [Plan.union, List.mem_append]
        exact Or.inr ((ih rel).2 n st cl h1)

/-- C5 counterexample: with the source root missing and a destination
holding one regular file `g`, `plan` returns a nonempty `rmfile` set — the
five sets are not all empty. -/
theorem claim5_counterexample :
    (["g"] ∈ (planFS none (some exDstOnlyFile)).rmfile) ∧
    (planFS none (some exDstOnlyFile)).rmfile ≠ [] := by
  have hplan : planFS none (some exDstOnlyFile) = ⟨[], [["g"]], [], [], []⟩ := by
    simp [planFS, planDir, branchPlan, listing, exDstOnlyFile, lookupName, eraseName,
      Plan.union, Plan.empty, Plan.oneRmfile]
  rw [hplan]
  exact ⟨by decide, by decide⟩

/-- C5 (amended): listing a missing (or unreadable) source root is absorbed
as an empty listing, so `plan` terminates normally with no `mkdir` and no
`copy` entry, schedules every top-level destination entry for removal
(directories into `rmdir`, files into `rmfile`), and returns five empty
sets when the destination root is also missing. -/
theorem claim5_amended_missing_source (B : Option FS) :
    (planFS none B).mkdir = [] ∧ (planFS none B).copy = [] ∧
    planFS none none = Plan.empty ∧
    (∀ n cs2, (n, FS.dir cs2) ∈ listing B → [n] ∈ (planFS none B).rmdir) ∧
    (∀ n st cl, (n, FS.file st cl) ∈ listing B → [n] ∈ (planFS none B).rmfile) := by
  refine ⟨(planDir_emptyL_no_creation [] (listing B)).1,
    (planDir_emptyL_no_creation [] (listing B)).2,
    by simp [planFS, planDir, listing], ?_, ?_⟩
  · intro n cs2 h
    exact (planDir_emptyL_schedules (listing B) []).1 n cs2 h
  · intro n st cl h
    exact (planDir_emptyL_schedules (listing B) []).2 n st cl h

/-- C6 evaluated at the failing inputs.  When `os.unlink` raises inside the
removal task, or `os.utime` raises inside the copy task, the task body
stops at the raising call: `thread_manager.release()` and the
`io_queue.get()`/`task_done()` hand-back never run (the bodies have no
`try`/`finally`), so the throttle slot and the completion-barrier token
stay held and `io_queue.join()` in `execute` waits forever.  On the
success paths both are released. -/
theorem claim6_release_not_unconditional :
    unlinkTask false = ([.osUnlink], true) ∧
    TEff.release ∉ (unlinkTask false).1 ∧
    TEff.ioGet ∉ (unlinkTask false).1 ∧
    copyTask true true false =
      ([.osOpenSrc, .osOpenDst, .streamed, .closeSrc, .closeDst, .osUtime], true) ∧
    TEff.release ∉ (copyTask true true false).1 ∧
    TEff.ioGet ∉ (copyTask true true false).1 ∧
    (TEff.release ∈ (unlinkTask true).1 ∧ TEff.ioGet ∈ (unlinkTask true).1) ∧
    (TEff.release ∈ (copyTask true true true).1 ∧
      TEff.ioGet ∈ (copyTask true true true).1) ∧
    (TEff.release ∈ (copyTask false false true).1 ∧
      TEff.ioGet ∈ (copyTask false false true).1) := by
  decide

/-- C7: in the copy pipeline for one file, bytes flow between the reader
and the writer if and only if both `open_file` calls delivered a handle
(an open failure is caught and logged, not raised, and the copy is then
abandoned: no read, no write, no `utime`); when both handles opened, the
source's access and modification times are replicated onto the
destination path. -/
theorem claim7_stream_iff_both_open (left right relp : String) (st : Stat)
    (srcOk dstOk : Bool) :
    ((Op.writeF (pjoin right relp) ∈ copyPipeline left right relp st srcOk dstOk) ↔
      (srcOk = true ∧ dstOk = true)) ∧
    ((Op.readF (pjoin left relp) ∈ copyPipeline left right relp st srcOk dstOk) ↔
      (srcOk = true ∧ dstOk = true)) ∧
    ((srcOk = true ∧ dstOk = true) →
      Op.utime (pjoin right relp) st.atime st.mtime ∈
        copyPipeline left right relp st srcOk dstOk) ∧
    (¬(srcOk = true ∧ dstOk = true) →
      (∀ q, Op.writeF q ∉ copyPipeline left right relp st srcOk dstOk) ∧
      (∀ q a m, Op.utime q a m ∉ copyPipeline left right relp st srcOk dstOk)) := by
  cases srcOk <;> cases dstOk <;> simp [copyPipeline]

theorem readPuts_ends_with_marker :
    ∀ evs, ∃ bs : List (List Nat), readPuts evs = bs.map some ++ [none] := by
  intro evs
  induction evs with
  | nil => exact ⟨[], rfl⟩
  | cons e evs ih =>
    cases e with
    | eof => exact ⟨[], rfl⟩
    | fail => exact ⟨[], rfl⟩
    | chunk b =>
      by_cases hb : b = []
      · exact ⟨[], by simp [readPuts, hb]⟩
      · obtain ⟨bs, hbs⟩ := ih
        exact ⟨b :: bs, by simp [readPuts, hb, hbs]⟩

theorem drainGets_consumes_all : ∀ (bs : List (List Nat)),
    drainGets (bs.map some ++ [none]) = bs.length + 1 := by
  intro bs
  induction bs with
  | nil => rfl
  | cons b bs ih =>
    rw [show (b :: bs).map some ++ [none] = some b :: (bs.map some ++ [none]) from rfl]
    rw [show drainGets (some b :: (bs.map some ++ [none])) =
        1 + drainGets (bs.map some ++ [none]) from rfl]
    rw [ih]
    simp
    omega

theorem writeGets_consumes_all (wfail : Nat → Bool) :
    ∀ (bs : List (List Nat)) (k : Nat),
    writeGets wfail (bs.map some ++ [none]) k = bs.length + 1 := by
  intro bs
  induction bs with
  | nil =>
    intro k
    rfl
  | cons b bs ih =>
    intro k
    rw [show (b :: bs).map some ++ [none] = some b :: (bs.map some ++ [none]) from rfl]
    rw [show writeGets wfail (some b :: (bs.map some ++ [none])) k =
        if wfail k then 1 + drainGets (bs.map some ++ [none])
        else 1 + writeGets wfail (bs.map some ++ [none]) (k + 1) from rfl]
    split
    · rw [drainGets_consumes_all]
      simp
      omega
    · rw [ih]
      simp
      omega

/-- C9: for every pattern of read failures (`evs` may end in `.fail`) and
every pattern of write failures (`wfail`), the reader's put stream always
terminates with the end-of-stream marker, and the writer — switching to
its drain loop on a write error — takes exactly as many items from the
bounded channel as the reader puts into it.  In a bounded FIFO with one
producer and one consumer this equality is precisely the absence of
indefinite blocking on either side: every put is matched by a get and the
consumer never demands an item that is not produced. -/
theorem claim9_reader_writer_shutdown (evs : List REv) (wfail : Nat → Bool) :
    (∃ bs : List (List Nat), readPuts evs = bs.map some ++ [none]) ∧
    writeGets wfail (readPuts evs) 0 = (readPuts evs).length := by
  obtain ⟨bs, hbs⟩ := readPuts_ends_with_marker evs
  refine ⟨⟨bs, hbs⟩, ?_⟩
  rw [hbs, writeGets_consumes_all]
  simp
